import Mathlib

/-!
# Verification of the telemetry-dashboard analytics pipeline

Shallow embedding of the metrics-computation core of `src/app.py` and proofs
of the specified properties.

Conventions of the embedding:

* Sample values are embedded as rationals (`ℚ`); the script's floating-point
  arithmetic is modelled exactly.
* A pandas `Series` of values is a `List ℚ`; a series that may contain
  missing entries (`NaN` holes produced by `asfreq`) is a `List (Option ℚ)`.
* `numpy.argmax` / `numpy.argmin` return the index of the FIRST occurrence of
  the extreme value; `argmaxP` / `argminP` below reproduce that, returning the
  pair (index, extreme value).
* Float comparisons against `NaN` and `±inf` (which arise from the z-score
  division `(x − μ)/σ` when `σ = 0`) are modelled by the small type `EF` below:
  `EF.nan` compares false against everything, matching IEEE semantics used by
  pandas (`NaN > 3` is `False`, `NaN <= NaN` is `False`).
-/

namespace Telemetry

/-- Index and value of the first occurrence of the maximum of a list
(`numpy.argmax` convention); `(0, dflt)` on the empty list. -/
def argmaxP {α : Type} [LinearOrder α] (dflt : α) : List α → ℕ × α
  | [] => (0, dflt)
  | [x] => (0, x)
  | x :: y :: xs =>
    let p := argmaxP dflt (y :: xs)
    if p.2 ≤ x then (0, x) else (p.1 + 1, p.2)

/-- Index and value of the first occurrence of the minimum of a list
(`numpy.argmin` convention); `(0, dflt)` on the empty list. -/
def argminP {α : Type} [LinearOrder α] (dflt : α) : List α → ℕ × α
  | [] => (0, dflt)
  | [x] => (0, x)
  | x :: y :: xs =>
    let p := argminP dflt (y :: xs)
    if x ≤ p.2 then (0, x) else (p.1 + 1, p.2)

/-- The trailing window `vals[i - window + 1 : i + 1]` inspected by
`compute_aroon` at index `i` (a Python slice of length `window` whenever
`window ≤ i < vals.length`). -/
def windowAt (vals : List ℚ) (window i : ℕ) : List ℚ :=
  (vals.drop (i - window + 1)).take window

/-- `compute_aroon`, Up component (`src/app.py`, lines 18-27): the loop runs
for `i` in `range(window, len(vals))`, so the value is defined (non-`NaN`)
exactly when `window ≤ i < vals.length`, and there it is
`100 * (window - 1 - idx_max) / window` with `idx_max = w.argmax()`. -/
def aroonUp (vals : List ℚ) (window i : ℕ) : Option ℚ :=
  if window ≤ i ∧ i < vals.length then
    some (100 * ((window : ℚ) - 1 - ((argmaxP 0 (windowAt vals window i)).1 : ℚ)) / (window : ℚ))
  else none

/-- `compute_aroon`, Down component: `100 * (window - 1 - idx_min) / window`
with `idx_min = w.argmin()`, on the same index range as `aroonUp`. -/
def aroonDown (vals : List ℚ) (window i : ℕ) : Option ℚ :=
  if window ≤ i ∧ i < vals.length then
    some (100 * ((window : ℚ) - 1 - ((argminP 0 (windowAt vals window i)).1 : ℚ)) / (window : ℚ))
  else none

/-- Elementwise `a_up > a_down` at index `i`; a comparison involving `NaN`
(an undefined Aroon entry) is `False` in pandas. -/
def aroonGt (vals : List ℚ) (window i : ℕ) : Bool :=
  match aroonUp vals window i, aroonDown vals window i with
  | some u, some d => decide (d < u)
  | _, _ => false

/-- Elementwise `a_up <= a_down` at index `i`; `False` on `NaN`. -/
def aroonLe (vals : List ℚ) (window i : ℕ) : Bool :=
  match aroonUp vals window i, aroonDown vals window i with
  | some u, some d => decide (u ≤ d)
  | _, _ => false

/-- One term of `(a_up > a_down) & (a_up.shift(1) <= a_down.shift(1))`
(`src/app.py`, line 65). `shift(1)` places `NaN` at position 0, and a `NaN`
comparison is `False`, hence the `i = 0` case. -/
def crossUpAt (vals : List ℚ) (window i : ℕ) : Bool :=
  aroonGt vals window i &&
    (match i with
     | 0 => false
     | j + 1 => aroonLe vals window j)

/-- `cross_up`: the number of `True` entries of the crossover mask over the
whole series (`.sum()` on a boolean Series). -/
def crossUpCount (vals : List ℚ) (window : ℕ) : ℕ :=
  ((List.range vals.length).map (crossUpAt vals window)).count true

/-- `ts.mean()`: arithmetic mean (`0` on the empty list, where pandas would
give `NaN`; the claims below only use nonempty series). -/
def meanQ (xs : List ℚ) : ℚ :=
  xs.sum / (xs.length : ℚ)

/-- `ts.std() ** 2`: sample variance with pandas' default `ddof = 1`,
`Σ (x − μ)² / (n − 1)`. (For `n ≤ 1` the `ℚ` division by zero yields `0`
where pandas yields `NaN`; in both cases the z-score of the single sample,
`0 / 0`, is `NaN` and is never flagged, so the flag sets agree.) -/
def varSample (xs : List ℚ) : ℚ :=
  (xs.map (fun x => (x - meanQ xs) ^ 2)).sum / ((xs.length : ℚ) - 1)

/-- Extended float value: the result of a float division that may produce `NaN`
or `±inf`. -/
inductive EF : Type
  | nan : EF
  | pinf : EF
  | ninf : EF
  | fin : ℚ → EF
deriving DecidableEq

/-- IEEE float division of finite operands: `0/0 = NaN`, `a/0 = ±inf` for
`a ≠ 0`, ordinary quotient otherwise. -/
def EF.divQ (a b : ℚ) : EF :=
  if b = 0 then (if a = 0 then EF.nan else if 0 < a then EF.pinf else EF.ninf)
  else EF.fin (a / b)

/-- IEEE `>` against a finite constant: `NaN` compares `False`,
`+inf > c` is `True`, `-inf > c` is `False`. -/
def EF.gtQ : EF → ℚ → Bool
  | EF.nan, _ => false
  | EF.pinf, _ => true
  | EF.ninf, _ => false
  | EF.fin a, c => decide (c < a)

/-- `out_z` at one sample (`src/app.py`, lines 38-39): the mask
`|x − μ| / σ > 3`. Since `σ = √(varSample) ≥ 0`, in exact arithmetic
`|x − μ| / σ > 3 ↔ (x − μ)² / σ² > 9`, which avoids the irrational square
root; the `EF` division reproduces the IEEE special cases (`0/0 = NaN` never
flagged, `pos/0 = +inf` always flagged), so the Boolean agrees with the
pandas mask on every input. -/
def zFlag (xs : List ℚ) (x : ℚ) : Bool :=
  EF.gtQ (EF.divQ ((x - meanQ xs) ^ 2) (varSample xs)) 9

/-- `out_z`: the whole z-score anomaly mask. -/
def zFlags (xs : List ℚ) : List Bool :=
  xs.map (zFlag xs)

/-- `out_z.sum()`: the reported number of z-score anomalies. -/
def zCount (xs : List ℚ) : ℕ :=
  (zFlags xs).count true

/-! ## Resampler / interpolator

`ts = df[...]["Residency"].asfreq("min").interpolate()` (`src/app.py`, line 34).

`asfreq("min")` reindexes onto the minute grid anchored at the first
timestamp and extending to the last timestamp (grid points
`t0, t0 + 1, …, t0 + ⌊t_last − t0⌋`, in minutes); a grid point keeps the raw
value when a raw sample sits exactly there and becomes a hole (`NaN`)
otherwise.

`interpolate()` is pandas' default `method="linear"`,
`limit_direction="forward"`: positions are treated as equally spaced, an
interior hole between two known values is filled by positional linear
interpolation (`numpy.interp`), holes after the last known value are filled
with that last known value (`numpy.interp` holds the boundary value
constant), and holes before the first known value are left as holes (the
forward limit direction masks backward fills). -/

/-- Index (within the list) and value of the first non-hole entry. -/
def findFirstSome : List (Option ℚ) → Option (ℕ × ℚ)
  | [] => none
  | some v :: _ => some (0, v)
  | none :: rest => (findFirstSome rest).map (fun p => (p.1 + 1, p.2))

/-- Position and value of the last known entry at or before position `i`. -/
def prevValid (s : List (Option ℚ)) : ℕ → Option (ℕ × ℚ)
  | 0 =>
    match s[0]? with
    | some (some v) => some (0, v)
    | _ => none
  | i + 1 =>
    match s[i + 1]? with
    | some (some v) => some (i + 1, v)
    | _ => prevValid s i

/-- Position and value of the first known entry at or after position `i`. -/
def nextValid (s : List (Option ℚ)) (i : ℕ) : Option (ℕ × ℚ) :=
  (findFirstSome (s.drop i)).map (fun p => (i + p.1, p.2))

/-- One entry of `interpolate()`: known values pass through; a hole is filled
from the nearest known neighbours as described above. -/
def interpolateAt (s : List (Option ℚ)) (i : ℕ) : Option ℚ :=
  match s[i]? with
  | some (some v) => some v
  | _ =>
    match prevValid s i, nextValid s i with
    | some (j, a), some (k, b) =>
      some (a + (b - a) * (((i : ℚ) - (j : ℚ)) / ((k : ℚ) - (j : ℚ))))
    | some (_, a), none => some a
    | _, _ => none

/-- `interpolate()` over the whole grid series. -/
def interpolate (s : List (Option ℚ)) : List (Option ℚ) :=
  (List.range s.length).map (interpolateAt s)

/-- `asfreq("min")`: raw samples are (timestamp, value) pairs with timestamps
in minutes, strictly increasing. -/
def asfreqMin : List (ℚ × ℚ) → List (Option ℚ)
  | [] => []
  | (t0, v0) :: rest =>
    (List.range ((⌊((t0, v0) :: rest).foldl (fun _ p => p.1) t0 - t0⌋).toNat + 1)).map
      (fun k => (((t0, v0) :: rest).find? (fun p => p.1 = t0 + (k : ℚ))).map Prod.snd)

/-- The resampled series `ts` of the pipeline. -/
def resampleMin (raw : List (ℚ × ℚ)) : List (Option ℚ) :=
  interpolate (asfreqMin raw)

/-! ## Periodicity analyzer

`src/app.py`, lines 50-56: demean, `np.fft.rfft`, drop the DC bin, take the
arg-max of the magnitudes, and report the reciprocal frequency in hours.
The discrete Fourier transform is exact real/complex arithmetic here, so
these definitions are necessarily noncomputable; the claims about them are
settled by lemmas, not by evaluation. -/

/-- The demeaned series `ts - ts.mean()` as real numbers. -/
noncomputable def demeanedR (xs : List ℚ) : List ℝ :=
  xs.map (fun x : ℚ => ((x : ℝ) - ((meanQ xs : ℚ) : ℝ)))

/-- Bin `k` of the discrete Fourier transform of a real series
(`np.fft.rfft` computes exactly these sums for `k ≤ N / 2`). -/
noncomputable def dftBin (xs : List ℝ) (k : ℕ) : ℂ :=
  ∑ j ∈ Finset.range xs.length,
    (xs.getD j 0 : ℂ) *
      Complex.exp (-2 * Real.pi * Complex.I * (k : ℂ) * (j : ℂ) / (xs.length : ℂ))

/-- `np.abs(fft_vals)`: the magnitude of each non-negative-frequency bin;
`rfft` returns `N / 2 + 1` bins (floor division). -/
noncomputable def rfftMags (xs : List ℝ) : List ℝ :=
  (List.range (xs.length / 2 + 1)).map (fun k => Complex.abs (dftBin xs k))

/-- `idx = np.argmax(np.abs(fft_vals[1:])) + 1`: the dominant non-DC bin. -/
noncomputable def dominantIdx (xs : List ℚ) : ℕ :=
  (argmaxP 0 ((rfftMags (demeanedR xs)).drop 1)).1 + 1

/-- `period_hours`: with `freqs = np.fft.rfftfreq(N, d=1)` one has
`freqs[idx] = idx / N`, so `period_minutes = 1 / freqs[idx] = N / idx` and
`period_hours = period_minutes / 60`. -/
noncomputable def periodHours (xs : List ℚ) : ℝ :=
  1 / ((dominantIdx xs : ℝ) / (xs.length : ℝ)) / 60

/-- Modelled from the spec (§4.6), for comparison with `aroonUp`: the spec's
formula `100 × (W − 1 − p_max) / W`, where `p_max` is the number of steps
back from the window's end to the maximum's position and ties go to the most
recent (largest-index) occurrence. The first occurrence of the maximum in
the REVERSED window is exactly `p_max` with that tie-break. The index range
is kept identical to `aroonUp` so that only the formula is compared. -/
def aroonUpSpec (vals : List ℚ) (window i : ℕ) : Option ℚ :=
  if window ≤ i ∧ i < vals.length then
    some (100 * ((window : ℚ) - 1 - ((argmaxP 0 (windowAt vals window i).reverse).1 : ℚ)) /
      (window : ℚ))
  else none

/-! ## Lemmas about `argmaxP` and `argminP` -/

theorem argmaxP_fst_lt {α : Type} [LinearOrder α] (d : α) (l : List α) (h : l ≠ []) :
    (argmaxP d l).1 < l.length := by
  induction l with
  | nil => simp at h
  | cons a xs ih =>
    cases xs with
    | nil => simp [argmaxP]
    | cons y ys =>
      by_cases hle : (argmaxP d (y :: ys)).2 ≤ a
      · simp [argmaxP, hle]
      · have := ih (by simp)
        simp only [List.length_cons] at this
        simp only [argmaxP, hle, if_false, List.length_cons]
        omega

theorem argmaxP_get? {α : Type} [LinearOrder α] (d : α) (l : List α) (h : l ≠ []) :
    l.get? (argmaxP d l).1 = some (argmaxP d l).2 := by
  induction l with
  | nil => simp at h
  | cons a xs ih =>
    cases xs with
    | nil => simp [argmaxP]
    | cons y ys =>
      by_cases hle : (argmaxP d (y :: ys)).2 ≤ a
      · simp [argmaxP, hle]
      · have := ih (by simp)
        simp only [argmaxP, hle, if_false]
        simpa using this

theorem argmaxP_le {α : Type} [LinearOrder α] (d : α) (l : List α) :
    ∀ x ∈ l, x ≤ (argmaxP d l).2 := by
  induction l with
  | nil => simp
  | cons a xs ih =>
    intro x hx
    cases xs with
    | nil =>
      rcases List.mem_cons.mp hx with rfl | hx2
      · simp [argmaxP]
      · simp at hx2
    | cons y ys =>
      by_cases hle : (argmaxP d (y :: ys)).2 ≤ a
      · rcases List.mem_cons.mp hx with rfl | hx2
        · simp [argmaxP, hle]
        · simp only [argmaxP, hle, if_true]
          exact le_trans (ih x hx2) hle
      · rcases List.mem_cons.mp hx with rfl | hx2
        · simp only [argmaxP, hle, if_false]
          exact le_of_not_le hle
        · simp only [argmaxP, hle, if_false]
          exact ih x hx2

theorem argmaxP_first {α : Type} [LinearOrder α] (d : α) (l : List α) :
    ∀ k x, k < (argmaxP d l).1 → l.get? k = some x → x < (argmaxP d l).2 := by
  induction l with
  | nil => simp [argmaxP]
  | cons a xs ih =>
    intro k x hk hget
    cases xs with
    | nil => simp [argmaxP] at hk
    | cons y ys =>
      by_cases hle : (argmaxP d (y :: ys)).2 ≤ a
      · simp [argmaxP, hle] at hk
      · simp only [argmaxP, hle, if_false] at hk ⊢
        cases k with
        | zero =>
          simp at hget
          subst hget
          exact lt_of_not_le hle
        | succ k =>
          simp only [List.get?_cons_succ] at hget
          exact ih k x (by omega) hget

theorem argmaxP_const {α : Type} [LinearOrder α] (d c : α) (l : List α)
    (hc : ∀ x ∈ l, x = c) (h : l ≠ []) : argmaxP d l = (0, c) := by
  induction l with
  | nil => simp at h
  | cons a xs ih =>
    cases xs with
    | nil => simp [argmaxP, hc a (by simp)]
    | cons y ys =>
      have h2 := ih (fun z hz => hc z (List.mem_cons_of_mem _ hz)) (by simp)
      have ha : a = c := hc a (by simp)
      simp [argmaxP, h2, ha]

theorem argminP_fst_lt {α : Type} [LinearOrder α] (d : α) (l : List α) (h : l ≠ []) :
    (argminP d l).1 < l.length := by
  induction l with
  | nil => simp at h
  | cons a xs ih =>
    cases xs with
    | nil => simp [argminP]
    | cons y ys =>
      by_cases hle : a ≤ (argminP d (y :: ys)).2
      · simp [argminP, hle]
      · have := ih (by simp)
        simp only [List.length_cons] at this
        simp only [argminP, hle, if_false, List.length_cons]
        omega

theorem argminP_get? {α : Type} [LinearOrder α] (d : α) (l : List α) (h : l ≠ []) :
    l.get? (argminP d l).1 = some (argminP d l).2 := by
  induction l with
  | nil => simp at h
  | cons a xs ih =>
    cases xs with
    | nil => simp [argminP]
    | cons y ys =>
      by_cases hle : a ≤ (argminP d (y :: ys)).2
      · simp [argminP, hle]
      · have := ih (by simp)
        simp only [argminP, hle, if_false]
        simpa using this

theorem argminP_ge {α : Type} [LinearOrder α] (d : α) (l : List α) :
    ∀ x ∈ l, (argminP d l).2 ≤ x := by
  induction l with
  | nil => simp
  | cons a xs ih =>
    intro x hx
    cases xs with
    | nil =>
      rcases List.mem_cons.mp hx with rfl | hx2
      · simp [argminP]
      · simp at hx2
    | cons y ys =>
      by_cases hle : a ≤ (argminP d (y :: ys)).2
      · rcases List.mem_cons.mp hx with rfl | hx2
        · simp [argminP, hle]
        · simp only [argminP, hle, if_true]
          exact le_trans hle (ih x hx2)
      · rcases List.mem_cons.mp hx with rfl | hx2
        · simp only [argminP, hle, if_false]
          exact le_of_not_le hle
        · simp only [argminP, hle, if_false]
          exact ih x hx2

theorem argminP_first {α : Type} [LinearOrder α] (d : α) (l : List α) :
    ∀ k x, k < (argminP d l).1 → l.get? k = some x → (argminP d l).2 < x := by
  induction l with
  | nil => simp [argminP]
  | cons a xs ih =>
    intro k x hk hget
    cases xs with
    | nil => simp [argminP] at hk
    | cons y ys =>
      by_cases hle : a ≤ (argminP d (y :: ys)).2
      · simp [argminP, hle] at hk
      · simp only [argminP, hle, if_false] at hk ⊢
        cases k with
        | zero =>
          simp at hget
          subst hget
          exact lt_of_not_le hle
        | succ k =>
          simp only [List.get?_cons_succ] at hget
          exact ih k x (by omega) hget

theorem argminP_const {α : Type} [LinearOrder α] (d c : α) (l : List α)
    (hc : ∀ x ∈ l, x = c) (h : l ≠ []) : argminP d l = (0, c) := by
  induction l with
  | nil => simp at h
  | cons a xs ih =>
    cases xs with
    | nil => simp [argminP, hc a (by simp)]
    | cons y ys =>
      have h2 := ih (fun z hz => hc z (List.mem_cons_of_mem _ hz)) (by simp)
      have ha : a = c := hc a (by simp)
      simp [argminP, h2, ha]

/-! ## Lemmas about the Aroon computation -/

theorem windowAt_length (vals : List ℚ) (window i : ℕ) (h1 : window ≤ i)
    (h2 : i < vals.length) : (windowAt vals window i).length = window := by
  simp only [windowAt, List.length_take, List.length_drop]
  omega

theorem windowAt_ne_nil (vals : List ℚ) (window i : ℕ) (hW : 1 ≤ window)
    (h1 : window ≤ i) (h2 : i < vals.length) : windowAt vals window i ≠ [] := by
  have := windowAt_length vals window i h1 h2
  intro hnil
  rw [hnil] at this
  simp at this
  omega

theorem windowAt_subset (vals : List ℚ) (window i : ℕ) :
    ∀ x ∈ windowAt vals window i, x ∈ vals := by
  intro x hx
  exact List.mem_of_mem_drop (List.mem_of_mem_take hx)

theorem aroonUp_eq_some (vals : List ℚ) (window i : ℕ) (h1 : window ≤ i)
    (h2 : i < vals.length) :
    aroonUp vals window i =
      some (100 * ((window : ℚ) - 1 - ((argmaxP 0 (windowAt vals window i)).1 : ℚ)) /
        (window : ℚ)) := by
  simp [aroonUp, h1, h2]

theorem aroonDown_eq_some (vals : List ℚ) (window i : ℕ) (h1 : window ≤ i)
    (h2 : i < vals.length) :
    aroonDown vals window i =
      some (100 * ((window : ℚ) - 1 - ((argminP 0 (windowAt vals window i)).1 : ℚ)) /
        (window : ℚ)) := by
  simp [aroonDown, h1, h2]

theorem aroonUp_eq_none (vals : List ℚ) (window i : ℕ)
    (h : ¬(window ≤ i ∧ i < vals.length)) : aroonUp vals window i = none := by
  simp only [aroonUp, if_neg h]

theorem aroonDown_eq_none (vals : List ℚ) (window i : ℕ)
    (h : ¬(window ≤ i ∧ i < vals.length)) : aroonDown vals window i = none := by
  simp only [aroonDown, if_neg h]

theorem aroonUp_const (vals : List ℚ) (c : ℚ) (window i : ℕ)
    (hc : ∀ x ∈ vals, x = c) (hW : 1 ≤ window) (h1 : window ≤ i) (h2 : i < vals.length) :
    aroonUp vals window i = some (100 * ((window : ℚ) - 1) / (window : ℚ)) := by
  have hwconst : ∀ x ∈ windowAt vals window i, x = c :=
    fun x hx => hc x (windowAt_subset vals window i x hx)
  have hargm := argmaxP_const 0 c (windowAt vals window i) hwconst
    (windowAt_ne_nil vals window i hW h1 h2)
  rw [aroonUp_eq_some vals window i h1 h2, hargm]
  norm_num

theorem aroonDown_const (vals : List ℚ) (c : ℚ) (window i : ℕ)
    (hc : ∀ x ∈ vals, x = c) (hW : 1 ≤ window) (h1 : window ≤ i) (h2 : i < vals.length) :
    aroonDown vals window i = some (100 * ((window : ℚ) - 1) / (window : ℚ)) := by
  have hwconst : ∀ x ∈ windowAt vals window i, x = c :=
    fun x hx => hc x (windowAt_subset vals window i x hx)
  have hargm := argminP_const 0 c (windowAt vals window i) hwconst
    (windowAt_ne_nil vals window i hW h1 h2)
  rw [aroonDown_eq_some vals window i h1 h2, hargm]
  norm_num

theorem count_true_eq_zero {l : List Bool} (h : ∀ b ∈ l, b = false) :
    l.count true = 0 := by
  rw [List.count_eq_zero]
  intro hmem
  exact absurd (h true hmem) (by simp)

theorem crossUpCount_eq_zero (vals : List ℚ) (window : ℕ)
    (h : ∀ i, crossUpAt vals window i = false) : crossUpCount vals window = 0 := by
  apply count_true_eq_zero
  intro b hb
  rcases List.mem_map.mp hb with ⟨i, _, rfl⟩
  exact h i

theorem crossUpAt_const (vals : List ℚ) (c : ℚ) (window : ℕ) (hW : 1 ≤ window)
    (hc : ∀ x ∈ vals, x = c) : ∀ i, crossUpAt vals window i = false := by
  intro i
  have hgt : aroonGt vals window i = false := by
    by_cases hd : window ≤ i ∧ i < vals.length
    · rw [aroonGt, aroonUp_const vals c window i hc hW hd.1 hd.2,
        aroonDown_const vals c window i hc hW hd.1 hd.2]
      simp
    · rw [aroonGt, aroonUp_eq_none vals window i hd]
    -- second branch: the match on (none, _) is false
  simp [crossUpAt, hgt]

/-! ## Lemmas about the z-score detector -/

theorem list_sum_const (l : List ℚ) (c : ℚ) (hc : ∀ x ∈ l, x = c) :
    l.sum = c * l.length := by
  induction l with
  | nil => simp
  | cons a xs ih =>
    have ha : a = c := hc a (by simp)
    have hxs := ih (fun z hz => hc z (List.mem_cons_of_mem _ hz))
    simp [ha, hxs]
    ring

theorem meanQ_const (xs : List ℚ) (c : ℚ) (hc : ∀ x ∈ xs, x = c) (h : xs ≠ []) :
    meanQ xs = c := by
  have hn : (xs.length : ℚ) ≠ 0 := by
    simp only [ne_eq, Nat.cast_eq_zero, List.length_eq_zero]
    exact h
  rw [meanQ, list_sum_const xs c hc, mul_div_assoc, div_self hn, mul_one]

theorem list_sum_sq_nonneg (l : List ℚ) (h : ∀ x ∈ l, 0 ≤ x) : 0 ≤ l.sum :=
  List.sum_nonneg h

theorem list_sum_nonneg_eq_zero (l : List ℚ) (h0 : ∀ x ∈ l, 0 ≤ x) (hs : l.sum = 0) :
    ∀ x ∈ l, x = 0 := by
  induction l with
  | nil => simp
  | cons a xs ih =>
    have ha : 0 ≤ a := h0 a (by simp)
    have hxs0 : ∀ x ∈ xs, 0 ≤ x := fun z hz => h0 z (List.mem_cons_of_mem _ hz)
    have hsum : 0 ≤ xs.sum := List.sum_nonneg hxs0
    simp only [List.sum_cons] at hs
    have ha0 : a = 0 := by linarith
    have hrest : xs.sum = 0 := by linarith
    intro x hx
    rcases List.mem_cons.mp hx with rfl | hx2
    · exact ha0
    · exact ih hxs0 hrest x hx2

/-- Zero sample variance forces every sample to equal the mean (covering the
degenerate lengths 0 and 1 directly). -/
theorem var_zero_imp_mean (xs : List ℚ) (h : varSample xs = 0) :
    ∀ x ∈ xs, x = meanQ xs := by
  intro x hx
  by_cases hlen : 2 ≤ xs.length
  case neg =>
    have hpos : 0 < xs.length := List.length_pos.mpr (List.ne_nil_of_mem hx)
    have h1 : xs.length = 1 := by omega
    rcases List.length_eq_one.mp h1 with ⟨a, rfl⟩
    simp only [List.mem_singleton] at hx
    subst hx
    simp [meanQ]
  case pos =>
    have hden : ((xs.length : ℚ) - 1) ≠ 0 := by
      have : (2 : ℚ) ≤ (xs.length : ℚ) := by exact_mod_cast hlen
      intro heq
      nlinarith
    rw [varSample, div_eq_zero_iff] at h
    rcases h with hsum | hbad
    · have h0 : ∀ y ∈ xs.map (fun x => (x - meanQ xs) ^ 2), 0 ≤ y := by
        intro y hy
        rcases List.mem_map.mp hy with ⟨z, _, rfl⟩
        positivity
      have hz := list_sum_nonneg_eq_zero _ h0 hsum ((x - meanQ xs) ^ 2)
        (List.mem_map.mpr ⟨x, hx, rfl⟩)
      have := sq_eq_zero_iff.mp hz
      linarith
    · exact absurd hbad hden

theorem zFlag_eq_false_of_mean (xs : List ℚ) (x : ℚ) (hvar : varSample xs = 0)
    (hx : x = meanQ xs) : zFlag xs x = false := by
  rw [zFlag, hvar, hx]
  simp [EF.divQ, EF.gtQ]

theorem zCount_eq_zero_of_var_zero (xs : List ℚ) (h : varSample xs = 0) :
    zCount xs = 0 := by
  apply count_true_eq_zero
  intro b hb
  rcases List.mem_map.mp hb with ⟨x, hx, rfl⟩
  exact zFlag_eq_false_of_mean xs x h (var_zero_imp_mean xs h x hx)

theorem varSample_const (xs : List ℚ) (c : ℚ) (hc : ∀ x ∈ xs, x = c) :
    varSample xs = 0 := by
  rcases eq_or_ne xs [] with rfl | hne
  · simp [varSample]
  · have hmean : meanQ xs = c := meanQ_const xs c hc hne
    have hterms : ∀ y ∈ xs.map (fun x => (x - meanQ xs) ^ 2), y = 0 := by
      intro y hy
      rcases List.mem_map.mp hy with ⟨z, hz, rfl⟩
      rw [hmean, hc z hz]
      ring
    rw [varSample, list_sum_const _ 0 hterms]
    simp

/-! ## Lemmas about the interpolator -/

theorem findFirstSome_eq_some (l : List (Option ℚ)) (k : ℕ) (b : ℚ)
    (hk : l[k]? = some (some b)) (hbefore : ∀ m, m < k → l[m]? = some none) :
    findFirstSome l = some (k, b) := by
  induction l generalizing k with
  | nil => simp at hk
  | cons o rest ih =>
    cases k with
    | zero =>
      simp only [List.getElem?_cons_zero, Option.some_inj] at hk
      subst hk
      rfl
    | succ k =>
      have h0 : o = none := by
        have := hbefore 0 (Nat.succ_pos k)
        simpa using this
      subst h0
      simp only [List.getElem?_cons_succ] at hk
      have hrec := ih k hk (fun m hm => by
        have := hbefore (m + 1) (Nat.succ_lt_succ hm)
        simpa using this)
      simp [findFirstSome, hrec]

theorem findFirstSome_eq_none (l : List (Option ℚ))
    (h : ∀ m, m < l.length → l[m]? = some none) : findFirstSome l = none := by
  induction l with
  | nil => rfl
  | cons o rest ih =>
    have h0 : o = none := by
      have := h 0 (by simp)
      simpa using this
    subst h0
    have hrec := ih (fun m hm => by
      have := h (m + 1) (by simpa using Nat.succ_lt_succ hm)
      simpa using this)
    simp [findFirstSome, hrec]

theorem prevValid_eq_some (s : List (Option ℚ)) (i j : ℕ) (a : ℚ)
    (hj : s[j]? = some (some a)) (hji : j ≤ i)
    (hmid : ∀ m, j < m → m ≤ i → s[m]? = some none) :
    prevValid s i = some (j, a) := by
  induction i with
  | zero =>
    have hj0 : j = 0 := Nat.le_zero.mp hji
    subst hj0
    simp [prevValid, hj]
  | succ i ih =>
    by_cases hji2 : j = i + 1
    · subst hji2
      simp [prevValid, hj]
    · have hji3 : j ≤ i := by omega
      have htop : s[i + 1]? = some none := hmid (i + 1) (by omega) (by omega)
      have hrec := ih hji3 (fun m h1 h2 => hmid m h1 (by omega))
      simp [prevValid, htop, hrec]

theorem prevValid_eq_none (s : List (Option ℚ)) (i : ℕ)
    (h : ∀ m, m ≤ i → ∀ a : ℚ, s[m]? ≠ some (some a)) :
    prevValid s i = none := by
  induction i with
  | zero =>
    rw [prevValid]
    rcases hg : s[0]? with _ | o
    · rfl
    · rcases o with _ | v
      · rfl
      · exact absurd hg (h 0 (le_refl 0) v)
  | succ i ih =>
    rw [prevValid]
    rcases hg : s[i + 1]? with _ | o
    · exact ih (fun m hm => h m (by omega))
    · rcases o with _ | v
      · exact ih (fun m hm => h m (by omega))
      · exact absurd hg (h (i + 1) (le_refl _) v)

theorem nextValid_eq_some (s : List (Option ℚ)) (i k : ℕ) (b : ℚ)
    (hik : i ≤ k) (hk : s[k]? = some (some b))
    (hmid : ∀ m, i ≤ m → m < k → s[m]? = some none) :
    nextValid s i = some (k, b) := by
  have hdrop : (s.drop i)[k - i]? = some (some b) := by
    rw [List.getElem?_drop]
    rwa [Nat.add_sub_cancel' hik]
  have hbefore : ∀ m, m < k - i → (s.drop i)[m]? = some none := by
    intro m hm
    rw [List.getElem?_drop]
    exact hmid (i + m) (by omega) (by omega)
  rw [nextValid, findFirstSome_eq_some (s.drop i) (k - i) b hdrop hbefore]
  simp [Nat.add_sub_cancel' hik]

theorem nextValid_eq_none (s : List (Option ℚ)) (i : ℕ)
    (h : ∀ m, i ≤ m → m < s.length → s[m]? = some none) :
    nextValid s i = none := by
  have hdrop : ∀ m, m < (s.drop i).length → (s.drop i)[m]? = some none := by
    intro m hm
    rw [List.getElem?_drop]
    rw [List.length_drop] at hm
    exact h (i + m) (by omega) (by omega)
  rw [nextValid, findFirstSome_eq_none (s.drop i) hdrop]
  rfl

theorem interpolate_getElem? (s : List (Option ℚ)) (i : ℕ) (hi : i < s.length) :
    (interpolate s)[i]? = some (interpolateAt s i) := by
  rw [interpolate, List.getElem?_map, List.getElem?_range hi]
  rfl

/-! ## Lemmas about the periodicity analyzer -/

theorem demeanedR_const (xs : List ℚ) (c : ℚ) (hc : ∀ x ∈ xs, x = c) (hne : xs ≠ []) :
    ∀ y ∈ demeanedR xs, y = 0 := by
  intro y hy
  rw [demeanedR, List.mem_map] at hy
  rcases hy with ⟨z, hz, rfl⟩
  rw [hc z hz, meanQ_const xs c hc hne]
  ring

theorem dftBin_of_zero (xs : List ℝ) (h : ∀ y ∈ xs, y = 0) (k : ℕ) :
    dftBin xs k = 0 := by
  rw [dftBin]
  apply Finset.sum_eq_zero
  intro j hj
  have hjlt : j < xs.length := Finset.mem_range.mp hj
  have hmem : xs.getD j 0 ∈ xs := by
    rw [List.getD_eq_getElem?_getD, List.getElem?_eq_getElem hjlt]
    exact List.getElem_mem hjlt
  rw [h _ hmem]
  simp

theorem rfftMags_of_zero (xs : List ℝ) (h : ∀ y ∈ xs, y = 0) :
    ∀ y ∈ rfftMags xs, y = 0 := by
  intro y hy
  simp only [rfftMags, List.mem_map] at hy
  rcases hy with ⟨k, _, rfl⟩
  rw [dftBin_of_zero xs h k]
  simp

theorem dominantIdx_const (xs : List ℚ) (c : ℚ) (h2 : 2 ≤ xs.length)
    (hc : ∀ x ∈ xs, x = c) : dominantIdx xs = 1 := by
  have hne : xs ≠ [] := by
    intro hnil
    rw [hnil] at h2
    simp at h2
  have hmags : ∀ y ∈ rfftMags (demeanedR xs), y = 0 :=
    rfftMags_of_zero _ (demeanedR_const xs c hc hne)
  have hdrop : ∀ y ∈ (rfftMags (demeanedR xs)).drop 1, y = 0 :=
    fun y hy => hmags y (List.mem_of_mem_drop hy)
  have hlen : (rfftMags (demeanedR xs)).length = xs.length / 2 + 1 := by
    rw [rfftMags, List.length_map, List.length_range, demeanedR, List.length_map]
  have hlen2 : ((rfftMags (demeanedR xs)).drop 1).length = xs.length / 2 := by
    rw [List.length_drop, hlen]
    omega
  have hdropne : (rfftMags (demeanedR xs)).drop 1 ≠ [] := by
    intro hnil
    rw [hnil] at hlen2
    simp only [List.length_nil] at hlen2
    omega
  rw [dominantIdx, argmaxP_const 0 0 _ hdrop hdropne]

/-! ## Claim theorems -/

/-- Claim C1, corrected. The code computes, at every defined index,
`AroonUp(i) = 100 · (W − 1 − q_max) / W` where `q_max` is the 0-based offset
WITHIN the trailing window of its maximum — equivalently `100 · p_max / W`
with `p_max` the number of steps back from the window's end — and ties go to
the OLDEST (smallest-index) occurrence (`numpy.argmax` returns the first
occurrence), not the most recent; likewise for the minimum. The theorem
exhibits the two offsets with their extremal and first-occurrence
characterisations together with the computed values. -/
theorem aroon_formula_first_occurrence (vals : List ℚ) (W i : ℕ) (hW : 1 ≤ W)
    (h1 : W ≤ i) (h2 : i < vals.length) :
    ∃ jmax jmin : ℕ, ∃ M m : ℚ,
      jmax < W ∧ jmin < W ∧
      (windowAt vals W i).get? jmax = some M ∧
      (∀ x ∈ windowAt vals W i, x ≤ M) ∧
      (∀ k x, k < jmax → (windowAt vals W i).get? k = some x → x < M) ∧
      (windowAt vals W i).get? jmin = some m ∧
      (∀ x ∈ windowAt vals W i, m ≤ x) ∧
      (∀ k x, k < jmin → (windowAt vals W i).get? k = some x → m < x) ∧
      aroonUp vals W i = some (100 * ((W : ℚ) - 1 - (jmax : ℚ)) / (W : ℚ)) ∧
      aroonDown vals W i = some (100 * ((W : ℚ) - 1 - (jmin : ℚ)) / (W : ℚ)) := by
  have hne := windowAt_ne_nil vals W i hW h1 h2
  have hlen := windowAt_length vals W i h1 h2
  refine ⟨(argmaxP 0 (windowAt vals W i)).1, (argminP 0 (windowAt vals W i)).1,
    (argmaxP 0 (windowAt vals W i)).2, (argminP 0 (windowAt vals W i)).2,
    ?_, ?_, ?_, ?_, ?_, ?_, ?_, ?_, ?_, ?_⟩
  · have h := argmaxP_fst_lt 0 _ hne
    rwa [hlen] at h
  · have h := argminP_fst_lt 0 _ hne
    rwa [hlen] at h
  · exact argmaxP_get? 0 _ hne
  · exact argmaxP_le 0 _
  · exact argmaxP_first 0 _
  · exact argminP_get? 0 _ hne
  · exact argminP_ge 0 _
  · exact argminP_first 0 _
  · exact aroonUp_eq_some vals W i h1 h2
  · exact aroonDown_eq_some vals W i h1 h2

/-- Claim C1, counterexample to the claim as stated. On the series
`[0, 5, 3]` with `W = 2`, at index 2 the window is `[5, 3]`: its maximum sits
one step back from the window's end, so the claimed formula
`100 · (W − 1 − p_max) / W` gives 0 (this is `aroonUpSpec`), while the code
computes `100 · (W − 1 − idx_max) / W = 50` with `idx_max` the offset of the
maximum from the window's START. -/
theorem aroon_formula_counterexample :
    aroonUp [(0 : ℚ), 5, 3] 2 2 = some 50 ∧ aroonUpSpec [(0 : ℚ), 5, 3] 2 2 = some 0 ∧
      aroonUp [(0 : ℚ), 5, 3] 2 2 ≠ aroonUpSpec [(0 : ℚ), 5, 3] 2 2 := by
  refine ⟨?_, ?_, ?_⟩ <;>
    norm_num [aroonUp, aroonUpSpec, windowAt, argmaxP]

/-- Claim C1 witness: the corrected theorem applied to the concrete series
`[0, 5, 3]`, `W = 2`, `i = 2`. -/
theorem aroon_formula_first_occurrence_witness :
    ∃ jmax jmin : ℕ, ∃ M m : ℚ,
      jmax < 2 ∧ jmin < 2 ∧
      (windowAt [(0 : ℚ), 5, 3] 2 2).get? jmax = some M ∧
      (∀ x ∈ windowAt [(0 : ℚ), 5, 3] 2 2, x ≤ M) ∧
      (∀ k x, k < jmax → (windowAt [(0 : ℚ), 5, 3] 2 2).get? k = some x → x < M) ∧
      (windowAt [(0 : ℚ), 5, 3] 2 2).get? jmin = some m ∧
      (∀ x ∈ windowAt [(0 : ℚ), 5, 3] 2 2, m ≤ x) ∧
      (∀ k x, k < jmin → (windowAt [(0 : ℚ), 5, 3] 2 2).get? k = some x → m < x) ∧
      aroonUp [(0 : ℚ), 5, 3] 2 2 = some (100 * ((2 : ℚ) - 1 - (jmax : ℚ)) / (2 : ℚ)) ∧
      aroonDown [(0 : ℚ), 5, 3] 2 2 = some (100 * ((2 : ℚ) - 1 - (jmin : ℚ)) / (2 : ℚ)) :=
  aroon_formula_first_occurrence [(0 : ℚ), 5, 3] 2 2 (by norm_num) (by norm_num) (by norm_num)

/-- Claim C2, corrected. A constant series produces zero z-score anomalies
and zero Aroon crossovers, and Aroon-Up and Aroon-Down stay equal at every
defined index — but at the value `100 · (W − 1) / W` (`≈ 99.93` for the
pipeline window `W = 1440`), not at 50. -/
theorem constant_series_analytics (xs : List ℚ) (c : ℚ) (hc : ∀ x ∈ xs, x = c) :
    zCount xs = 0 ∧ crossUpCount xs 1440 = 0 ∧
      ∀ i, 1440 ≤ i → i < xs.length →
        aroonUp xs 1440 i = some (100 * 1439 / 1440) ∧
        aroonDown xs 1440 i = some (100 * 1439 / 1440) := by
  refine ⟨?_, ?_, ?_⟩
  · exact zCount_eq_zero_of_var_zero xs (varSample_const xs c hc)
  · exact crossUpCount_eq_zero xs 1440 (crossUpAt_const xs c 1440 (by norm_num) hc)
  · intro i hi1 hi2
    constructor
    · rw [aroonUp_const xs c 1440 i hc (by norm_num) hi1 hi2]
      norm_num
    · rw [aroonDown_const xs c 1440 i hc (by norm_num) hi1 hi2]
      norm_num

/-- Claim C2, counterexample to the claim as stated: on a constant series of
length 1441 the pipeline's Aroon (window 1440) is defined at index 1440 and
both components equal `100 · 1439 / 1440 ≠ 50` there. -/
theorem constant_series_counterexample :
    aroonUp (List.replicate 1441 (7 : ℚ)) 1440 1440 ≠ some 50 := by
  rw [aroonUp_const (List.replicate 1441 (7 : ℚ)) 7 1440 1440
    (fun _ hx => List.eq_of_mem_replicate hx) (by norm_num) (le_refl 1440)
    (by rw [List.length_replicate]; omega)]
  simp only [ne_eq, Option.some_inj]
  norm_num

/-- Claim C2 witness: the corrected theorem applied to the constant series of
1441 copies of 7, which has defined Aroon indices. -/
theorem constant_series_analytics_witness :
    zCount (List.replicate 1441 (7 : ℚ)) = 0 ∧
      crossUpCount (List.replicate 1441 (7 : ℚ)) 1440 = 0 ∧
      ∀ i, 1440 ≤ i → i < (List.replicate 1441 (7 : ℚ)).length →
        aroonUp (List.replicate 1441 (7 : ℚ)) 1440 i = some (100 * 1439 / 1440) ∧
        aroonDown (List.replicate 1441 (7 : ℚ)) 1440 i = some (100 * 1439 / 1440) :=
  constant_series_analytics (List.replicate 1441 (7 : ℚ)) 7
    (fun _ hx => List.eq_of_mem_replicate hx)

/-- Claim C3, code-bug evidence. On a perfectly constant series of length
`N ≥ 2` the demeaned series is identically zero, every spectral magnitude is
zero, `np.argmax` of the all-zero magnitudes returns bin 0 so `idx = 1`, and
the code silently reports `period_hours = N / 60` — the reciprocal of bin 1's
near-zero frequency — instead of failing with a degenerate-period error or
reporting that no periodicity was found. -/
theorem period_hours_constant_series (xs : List ℚ) (c : ℚ) (h2 : 2 ≤ xs.length)
    (hc : ∀ x ∈ xs, x = c) : periodHours xs = (xs.length : ℝ) / 60 := by
  have hidx : dominantIdx xs = 1 := dominantIdx_const xs c h2 hc
  have hn : (xs.length : ℝ) ≠ 0 := by
    have : 0 < xs.length := by omega
    positivity
  rw [periodHours, hidx]
  rw [Nat.cast_one, one_div, one_div, inv_inv]

/-- Claim C3 witness: the evidence theorem applied to the concrete constant
series of four samples of value 50, for which the analyzer reports a
"dominant period" of `4` minutes, i.e. `4 / 60` hours. -/
theorem period_hours_constant_series_witness :
    periodHours (List.replicate 4 (50 : ℚ)) = (4 : ℝ) / 60 := by
  have h := period_hours_constant_series (List.replicate 4 (50 : ℚ)) 50
    (by rw [List.length_replicate]; omega) (fun _ hx => List.eq_of_mem_replicate hx)
  simpa using h

/-- Claim C4, confirmed. For every series with zero (sample) standard
deviation the z-score detector flags zero anomalies; the division
`(x − μ) / σ` produces `NaN` (0/0 in IEEE arithmetic, modelled by `EF.nan`),
the comparison `NaN > 3` is `False`, and pandas raises no error — totality of
`zCount` over the embedding mirrors the absence of a division exception. -/
theorem zscore_zero_std_no_flags (xs : List ℚ) (h : varSample xs = 0) :
    zCount xs = 0 :=
  zCount_eq_zero_of_var_zero xs h

/-- Claim C4 witness: the theorem applied to the constant series of three
samples of value 5, whose sample variance is zero. -/
theorem zscore_zero_std_no_flags_witness :
    varSample (List.replicate 3 (5 : ℚ)) = 0 ∧ zCount (List.replicate 3 (5 : ℚ)) = 0 :=
  ⟨varSample_const (List.replicate 3 (5 : ℚ)) 5 (fun _ hx => List.eq_of_mem_replicate hx),
    zscore_zero_std_no_flags (List.replicate 3 (5 : ℚ))
      (varSample_const (List.replicate 3 (5 : ℚ)) 5
        (fun _ hx => List.eq_of_mem_replicate hx))⟩

/-- Claim C5, corrected. The Aroon pair is defined exactly at indices
`W ≤ i ≤ N − 1` — one later than the claimed `W − 1 ≤ i ≤ N − 1`, because the
loop in `compute_aroon` starts at `range(window, len(vals))` — and the first
eligible index (`i = W`) can never register a crossover, its predecessor
being undefined. In particular a series of length exactly `W` has NO defined
Aroon entry. -/
theorem aroon_defined_range (vals : List ℚ) (W : ℕ) (hW : 1 ≤ W) :
    (∀ i, (aroonUp vals W i).isSome = true ↔ (W ≤ i ∧ i < vals.length)) ∧
      (∀ i, (aroonDown vals W i).isSome = true ↔ (W ≤ i ∧ i < vals.length)) ∧
      crossUpAt vals W W = false := by
  refine ⟨?_, ?_, ?_⟩
  · intro i
    by_cases hc : W ≤ i ∧ i < vals.length
    · simp [aroonUp, hc]
    · simp [aroonUp, hc]
  · intro i
    by_cases hc : W ≤ i ∧ i < vals.length
    · simp [aroonDown, hc]
    · simp [aroonDown, hc]
  · obtain ⟨j, rfl⟩ : ∃ j, W = j + 1 := ⟨W - 1, by omega⟩
    have hnone : aroonUp vals (j + 1) j = none :=
      aroonUp_eq_none vals (j + 1) j (by omega)
    simp [crossUpAt, aroonLe, hnone]

/-- Claim C5, counterexample to the claim as stated: the series `[1, 2, 3]`
has length `N = 3 ≥ W = 3`, and the claim asserts the Aroon pair is defined
at `i = W − 1 = 2`; the code leaves it undefined (`NaN`), since the loop
starts at `i = W = 3 = len(vals)` and never runs. -/
theorem aroon_defined_counterexample :
    aroonUp [(1 : ℚ), 2, 3] 3 2 = none ∧ aroonDown [(1 : ℚ), 2, 3] 3 2 = none := by
  constructor <;> norm_num [aroonUp, aroonDown]

/-- Claim C5 witness: the corrected theorem applied to `[1, 2, 3, 4]`,
`W = 2` (defined exactly at indices 2 and 3; no crossover at `i = 2`). -/
theorem aroon_defined_range_witness :
    (∀ i, (aroonUp [(1 : ℚ), 2, 3, 4] 2 i).isSome = true ↔
        (2 ≤ i ∧ i < (List.length [(1 : ℚ), 2, 3, 4]))) ∧
      (∀ i, (aroonDown [(1 : ℚ), 2, 3, 4] 2 i).isSome = true ↔
        (2 ≤ i ∧ i < (List.length [(1 : ℚ), 2, 3, 4]))) ∧
      crossUpAt [(1 : ℚ), 2, 3, 4] 2 2 = false :=
  aroon_defined_range [(1 : ℚ), 2, 3, 4] 2 (by norm_num)

/-- Claim C6, corrected. After reindexing, an interior gap (a hole with a
known value strictly before and strictly after it) is filled by linear
interpolation between the nearest known samples on each side, and the filled
value lies between those two values; a leading gap (no known value at or
before it) is left undefined; but a TRAILING gap (a known value before it and
none after) is NOT left undefined — pandas' default forward interpolation
fills it with the nearest earlier known value (constant extrapolation). -/
theorem interpolate_gap_behaviour (s : List (Option ℚ)) :
    (∀ i j k : ℕ, ∀ a b : ℚ,
      s[i]? = some none → s[j]? = some (some a) → s[k]? = some (some b) →
      j < i → i < k → (∀ m, j < m → m < k → s[m]? = some none) →
      ∃ v, v = a + (b - a) * (((i : ℚ) - (j : ℚ)) / ((k : ℚ) - (j : ℚ))) ∧
        (interpolate s)[i]? = some (some v) ∧ min a b ≤ v ∧ v ≤ max a b) ∧
    (∀ i, i < s.length → (∀ m, m ≤ i → s[m]? = some none) →
      (interpolate s)[i]? = some none) ∧
    (∀ i j : ℕ, ∀ a : ℚ,
      s[i]? = some none → s[j]? = some (some a) → j < i →
      (∀ m, j < m → m < s.length → s[m]? = some none) →
      (interpolate s)[i]? = some (some a)) := by
  refine ⟨?_, ?_, ?_⟩
  · intro i j k a b hgap hj hk hji hik hmid
    have hi : i < s.length := by
      rcases List.getElem?_eq_some.mp hgap with ⟨h, _⟩
      exact h
    have hprev : prevValid s i = some (j, a) :=
      prevValid_eq_some s i j a hj (le_of_lt hji)
        (fun m h1 h2 => by
          rcases eq_or_lt_of_le h2 with rfl | h3
          · exact hgap
          · exact hmid m h1 (lt_trans h3 hik))
    have hnext : nextValid s i = some (k, b) :=
      nextValid_eq_some s i k b (le_of_lt hik) hk
        (fun m h1 h2 => by
          rcases eq_or_lt_of_le h1 with rfl | h3
          · exact hgap
          · exact hmid m (lt_trans hji h3) h2)
    refine ⟨a + (b - a) * (((i : ℚ) - (j : ℚ)) / ((k : ℚ) - (j : ℚ))), rfl, ?_, ?_, ?_⟩
    · rw [interpolate_getElem? s i hi]
      simp only [interpolateAt, hgap, hprev, hnext]
    · have hden : (0 : ℚ) < (k : ℚ) - (j : ℚ) := by
        have : (j : ℚ) < (k : ℚ) := by exact_mod_cast lt_trans hji hik
        linarith
      have ht0 : 0 ≤ ((i : ℚ) - (j : ℚ)) / ((k : ℚ) - (j : ℚ)) := by
        apply div_nonneg _ (le_of_lt hden)
        have : (j : ℚ) < (i : ℚ) := by exact_mod_cast hji
        linarith
      have ht1 : ((i : ℚ) - (j : ℚ)) / ((k : ℚ) - (j : ℚ)) ≤ 1 := by
        rw [div_le_one hden]
        have : (i : ℚ) < (k : ℚ) := by exact_mod_cast hik
        linarith
      rcases le_total a b with hab | hab
      · rw [min_eq_left hab]
        nlinarith [mul_nonneg (sub_nonneg.mpr hab) ht0]
      · rw [min_eq_right hab]
        nlinarith [mul_le_mul_of_nonneg_right (sub_le_sub_right hab a)
          ht0, mul_le_mul_of_nonneg_left ht1 (sub_nonneg.mpr hab)]
    · have hden : (0 : ℚ) < (k : ℚ) - (j : ℚ) := by
        have : (j : ℚ) < (k : ℚ) := by exact_mod_cast lt_trans hji hik
        linarith
      have ht0 : 0 ≤ ((i : ℚ) - (j : ℚ)) / ((k : ℚ) - (j : ℚ)) := by
        apply div_nonneg _ (le_of_lt hden)
        have : (j : ℚ) < (i : ℚ) := by exact_mod_cast hji
        linarith
      have ht1 : ((i : ℚ) - (j : ℚ)) / ((k : ℚ) - (j : ℚ)) ≤ 1 := by
        rw [div_le_one hden]
        have : (i : ℚ) < (k : ℚ) := by exact_mod_cast hik
        linarith
      rcases le_total a b with hab | hab
      · rw [max_eq_right hab]
        nlinarith [mul_le_mul_of_nonneg_left ht1 (sub_nonneg.mpr hab)]
      · rw [max_eq_left hab]
        nlinarith [mul_nonneg (sub_nonneg.mpr hab) ht0,
          mul_le_mul_of_nonneg_right (sub_le_sub_right hab a) ht0]
  · intro i hi hall
    have hgap : s[i]? = some none := hall i (le_refl i)
    have hprev : prevValid s i = none :=
      prevValid_eq_none s i (fun m hm a => by rw [hall m hm]; simp)
    rw [interpolate_getElem? s i hi]
    rcases hnv : nextValid s i with _ | p
    · simp only [interpolateAt, hgap, hprev, hnv]
    · simp only [interpolateAt, hgap, hprev, hnv]
  · intro i j a hgap hj hji hall
    have hi : i < s.length := by
      rcases List.getElem?_eq_some.mp hgap with ⟨h, _⟩
      exact h
    have hprev : prevValid s i = some (j, a) :=
      prevValid_eq_some s i j a hj (le_of_lt hji)
        (fun m h1 h2 => hall m h1 (lt_of_le_of_lt h2 hi))
    have hnext : nextValid s i = none :=
      nextValid_eq_none s i (fun m h1 h2 => hall m (lt_of_lt_of_le hji h1) h2)
    rw [interpolate_getElem? s i hi]
    simp only [interpolateAt, hgap, hprev, hnext]

/-- Claim C6, counterexample to the claim as stated. Raw samples at minutes
0 and 1.5 produce the minute grid `[0, 1]` with a hole at minute 1 that has
no known grid sample after it (a trailing boundary gap); the claim says it
must stay undefined, but the pipeline fills it with the last known value 1. -/
theorem interpolate_boundary_counterexample :
    resampleMin [((0 : ℚ), (1 : ℚ)), (3 / 2, 3)] = [some 1, some 1] := by
  norm_num [resampleMin, asfreqMin, interpolate, interpolateAt, prevValid, nextValid,
    findFirstSome, List.range_succ, List.find?]

/-- Claim C6 witness: the interior-gap clause of the corrected theorem applied
to the grid series `[some 1, none, some 3]` at position 1. -/
theorem interpolate_gap_behaviour_witness :
    ∃ v, v = 1 + (3 - 1) * ((((1 : ℕ) : ℚ) - ((0 : ℕ) : ℚ)) / (((2 : ℕ) : ℚ) - ((0 : ℕ) : ℚ))) ∧
      (interpolate [some 1, none, some 3])[1]? = some (some v) ∧
      min (1 : ℚ) 3 ≤ v ∧ v ≤ max (1 : ℚ) 3 :=
  (interpolate_gap_behaviour [some 1, none, some 3]).1 1 0 2 1 3 rfl rfl rfl
    (by norm_num) (by norm_num)
    (fun m h1 h2 => by
      have hm : m = 1 := by omega
      subst hm
      rfl)

/-- Claim C7, confirmed. Wherever the Aroon pair is defined, both components
lie in the closed interval `[0, 100]` (the argmax/argmin offset is at most
`W − 1`, so the numerator lies between 0 and `100 · (W − 1)`). -/
theorem aroon_values_in_range (vals : List ℚ) (W i : ℕ) (hW : 1 ≤ W) :
    (∀ u, aroonUp vals W i = some u → 0 ≤ u ∧ u ≤ 100) ∧
      (∀ d, aroonDown vals W i = some d → 0 ≤ d ∧ d ≤ 100) := by
  have hWQ : (0 : ℚ) < (W : ℚ) := by exact_mod_cast hW
  constructor
  · intro u hu
    by_cases hc : W ≤ i ∧ i < vals.length
    case neg =>
      rw [aroonUp_eq_none vals W i hc] at hu
      exact absurd hu (by simp)
    case pos =>
      rw [aroonUp_eq_some vals W i hc.1 hc.2, Option.some_inj] at hu
      have hj : (argmaxP 0 (windowAt vals W i)).1 < W := by
        have h := argmaxP_fst_lt 0 _ (windowAt_ne_nil vals W i hW hc.1 hc.2)
        rwa [windowAt_length vals W i hc.1 hc.2] at h
      have hjQ : ((argmaxP 0 (windowAt vals W i)).1 : ℚ) + 1 ≤ (W : ℚ) := by
        exact_mod_cast hj
      have hj0 : (0 : ℚ) ≤ ((argmaxP 0 (windowAt vals W i)).1 : ℚ) := by positivity
      subst hu
      constructor
      · apply div_nonneg _ (le_of_lt hWQ)
        nlinarith
      · rw [div_le_iff₀ hWQ]
        nlinarith
  · intro d hd
    by_cases hc : W ≤ i ∧ i < vals.length
    case neg =>
      rw [aroonDown_eq_none vals W i hc] at hd
      exact absurd hd (by simp)
    case pos =>
      rw [aroonDown_eq_some vals W i hc.1 hc.2, Option.some_inj] at hd
      have hj : (argminP 0 (windowAt vals W i)).1 < W := by
        have h := argminP_fst_lt 0 _ (windowAt_ne_nil vals W i hW hc.1 hc.2)
        rwa [windowAt_length vals W i hc.1 hc.2] at h
      have hjQ : ((argminP 0 (windowAt vals W i)).1 : ℚ) + 1 ≤ (W : ℚ) := by
        exact_mod_cast hj
      have hj0 : (0 : ℚ) ≤ ((argminP 0 (windowAt vals W i)).1 : ℚ) := by positivity
      subst hd
      constructor
      · apply div_nonneg _ (le_of_lt hWQ)
        nlinarith
      · rw [div_le_iff₀ hWQ]
        nlinarith

/-- Claim C7 witness: the theorem applied to `[0, 5, 3]`, `W = 2`, `i = 2`,
where Aroon-Up is 50 and Aroon-Down is 0. -/
theorem aroon_values_in_range_witness :
    (0 : ℚ) ≤ 50 ∧ (50 : ℚ) ≤ 100 ∧ (0 : ℚ) ≤ 0 ∧ (0 : ℚ) ≤ 100 := by
  have h := aroon_values_in_range [(0 : ℚ), 5, 3] 2 2 (by norm_num)
  have hu := h.1 50 (by norm_num [aroonUp, windowAt, argmaxP])
  have hd := h.2 0 (by norm_num [aroonDown, windowAt, argminP])
  exact ⟨hu.1, hu.2, hd.1, hd.2⟩

/-- Claim C8, confirmed. For a series shorter than the window the loop body
never runs: every Aroon entry is undefined and the crossover count is zero;
nothing fails. -/
theorem aroon_short_series (vals : List ℚ) (W : ℕ) (h : vals.length < W) :
    (∀ i, aroonUp vals W i = none ∧ aroonDown vals W i = none) ∧
      crossUpCount vals W = 0 := by
  have hnone : ∀ i, ¬(W ≤ i ∧ i < vals.length) := by
    intro i hc
    omega
  constructor
  · intro i
    exact ⟨aroonUp_eq_none vals W i (hnone i), aroonDown_eq_none vals W i (hnone i)⟩
  · apply crossUpCount_eq_zero
    intro i
    have hg : aroonGt vals W i = false := by
      rw [aroonGt, aroonUp_eq_none vals W i (hnone i)]
    simp [crossUpAt, hg]

/-- Claim C8 witness: the theorem applied to the two-sample series `[1, 2]`
with the window `W = 3`. -/
theorem aroon_short_series_witness :
    (∀ i, aroonUp [(1 : ℚ), 2] 3 i = none ∧ aroonDown [(1 : ℚ), 2] 3 i = none) ∧
      crossUpCount [(1 : ℚ), 2] 3 = 0 :=
  aroon_short_series [(1 : ℚ), 2] 3 (by norm_num)

/-- Claim C10, confirmed. Wherever defined, both Aroon components are
strictly below 100; the largest attainable value is `100 · (W − 1) / W`,
attained exactly when the selected (first-occurrence) extreme offset is 0,
i.e. the extreme sits at the window's oldest position; and the value 0 is
attained exactly when that offset is `W − 1`, i.e. the extreme is the current
sample. -/
theorem aroon_strict_upper_bound (vals : List ℚ) (W i : ℕ) (hW : 1 ≤ W) :
    (∀ u, aroonUp vals W i = some u →
      u < 100 ∧ u ≤ 100 * ((W : ℚ) - 1) / (W : ℚ) ∧
      (u = 100 * ((W : ℚ) - 1) / (W : ℚ) ↔ (argmaxP 0 (windowAt vals W i)).1 = 0) ∧
      (u = 0 ↔ (argmaxP 0 (windowAt vals W i)).1 = W - 1)) ∧
    (∀ d, aroonDown vals W i = some d →
      d < 100 ∧ d ≤ 100 * ((W : ℚ) - 1) / (W : ℚ) ∧
      (d = 100 * ((W : ℚ) - 1) / (W : ℚ) ↔ (argminP 0 (windowAt vals W i)).1 = 0) ∧
      (d = 0 ↔ (argminP 0 (windowAt vals W i)).1 = W - 1)) := by
  have hWQ : (0 : ℚ) < (W : ℚ) := by exact_mod_cast hW
  have hcast : ((W - 1 : ℕ) : ℚ) = (W : ℚ) - 1 := by
    rw [Nat.cast_sub hW, Nat.cast_one]
  constructor
  · intro u hu
    by_cases hc : W ≤ i ∧ i < vals.length
    case neg =>
      rw [aroonUp_eq_none vals W i hc] at hu
      exact absurd hu (by simp)
    case pos =>
      rw [aroonUp_eq_some vals W i hc.1 hc.2, Option.some_inj] at hu
      have hj : (argmaxP 0 (windowAt vals W i)).1 < W := by
        have h := argmaxP_fst_lt 0 _ (windowAt_ne_nil vals W i hW hc.1 hc.2)
        rwa [windowAt_length vals W i hc.1 hc.2] at h
      have hj0 : (0 : ℚ) ≤ ((argmaxP 0 (windowAt vals W i)).1 : ℚ) := by positivity
      subst hu
      refine ⟨?_, ?_, ?_, ?_⟩
      · rw [div_lt_iff₀ hWQ]
        nlinarith
      · rw [div_le_div_iff_of_pos_right hWQ]
        nlinarith
      · rw [div_left_inj' (ne_of_gt hWQ)]
        constructor
        · intro h
          have : ((argmaxP 0 (windowAt vals W i)).1 : ℚ) = 0 := by linarith
          exact_mod_cast this
        · intro h
          rw [h]
          norm_num
      · rw [div_eq_zero_iff]
        constructor
        · intro h
          rcases h with h | h
          · have : ((argmaxP 0 (windowAt vals W i)).1 : ℚ) = ((W - 1 : ℕ) : ℚ) := by
              rw [hcast]
              linarith
            exact_mod_cast this
          · exact absurd h (ne_of_gt hWQ)
        · intro h
          left
          rw [h, hcast]
          ring
  · intro d hd
    by_cases hc : W ≤ i ∧ i < vals.length
    case neg =>
      rw [aroonDown_eq_none vals W i hc] at hd
      exact absurd hd (by simp)
    case pos =>
      rw [aroonDown_eq_some vals W i hc.1 hc.2, Option.some_inj] at hd
      have hj : (argminP 0 (windowAt vals W i)).1 < W := by
        have h := argminP_fst_lt 0 _ (windowAt_ne_nil vals W i hW hc.1 hc.2)
        rwa [windowAt_length vals W i hc.1 hc.2] at h
      have hj0 : (0 : ℚ) ≤ ((argminP 0 (windowAt vals W i)).1 : ℚ) := by positivity
      subst hd
      refine ⟨?_, ?_, ?_, ?_⟩
      · rw [div_lt_iff₀ hWQ]
        nlinarith
      · rw [div_le_div_iff_of_pos_right hWQ]
        nlinarith
      · rw [div_left_inj' (ne_of_gt hWQ)]
        constructor
        · intro h
          have : ((argminP 0 (windowAt vals W i)).1 : ℚ) = 0 := by linarith
          exact_mod_cast this
        · intro h
          rw [h]
          norm_num
      · rw [div_eq_zero_iff]
        constructor
        · intro h
          rcases h with h | h
          · have : ((argminP 0 (windowAt vals W i)).1 : ℚ) = ((W - 1 : ℕ) : ℚ) := by
              rw [hcast]
              linarith
            exact_mod_cast this
          · exact absurd h (ne_of_gt hWQ)
        · intro h
          left
          rw [h, hcast]
          ring

/-- Claim C10 witness: the theorem applied to `[0, 5, 3]`, `W = 2`, `i = 2`:
Aroon-Up is `50 = 100 · (W − 1) / W` with the maximum at the oldest window
position (offset 0), and Aroon-Down is 0 with the minimum at the current
sample (offset `W − 1 = 1`). -/
theorem aroon_strict_upper_bound_witness :
    (50 : ℚ) < 100 ∧ (argmaxP 0 (windowAt [(0 : ℚ), 5, 3] 2 2)).1 = 0 ∧
      (argminP 0 (windowAt [(0 : ℚ), 5, 3] 2 2)).1 = 2 - 1 := by
  have h := aroon_strict_upper_bound [(0 : ℚ), 5, 3] 2 2 (by norm_num)
  have hu := h.1 50 (by norm_num [aroonUp, windowAt, argmaxP])
  have hd := h.2 0 (by norm_num [aroonDown, windowAt, argminP])
  exact ⟨hu.1, (hu.2.2.1).mp (by norm_num), (hd.2.2.2).mp rfl⟩

end Telemetry
